import Mathlib

/-!
Verification of the Rockchip VPU H.264 decoder configuration core
(rk3399 vdec): bit-field writer, RPS/PPS assemblers, scaling-list
reordering, stride computation and the completion/watchdog paths.

Machine integers are embedded as `Nat` with explicit reduction
modulo `2 ^ 32` (or `2 ^ 16`) where the C code computes in `u32`
(resp. `u16`).  Word buffers are embedded as functions `Nat → Nat`
from word index to word value; `bitAt` views such a buffer as the
little-endian bit stream the hardware reads.
-/

namespace RkVdec

/-- Low-bit mask `(1 << len) - 1` as used by `write_header`. -/
def maskN (len : Nat) : Nat := (1 <<< len) - 1

/-- C unsigned 32-bit bitwise complement `~x`. -/
def notW (x : Nat) : Nat := (x % 2 ^ 32) ^^^ (2 ^ 32 - 1)

/-- Bit `k` of a word buffer viewed as a little-endian stream of 32-bit words. -/
def bitAt (buffer : Nat → Nat) (k : Nat) : Bool :=
  (buffer (k / 32)).testBit (k % 32)

/-- Shallow embedding of `write_header` (part_000, lines 210-229): write the low
`len` bits of `value` into the word buffer at bit position `offset`, splitting
into two masked word writes when the field straddles a 32-bit word boundary.
Every `u32` intermediate is reduced modulo `2 ^ 32`. -/
def write_header (value : Nat) (buffer : Nat → Nat) (offset len : Nat) : Nat → Nat :=
  let v := value % 2 ^ 32
  let word := offset / 32
  let bit := offset % 32
  if len + bit > 32 then
    let len1 := 32 - bit
    let len2 := len + bit - 32
    let w1 := (buffer word &&& notW ((maskN len1 <<< bit) % 2 ^ 32)) ||| ((v <<< bit) % 2 ^ 32)
    let buf1 := Function.update buffer word w1
    let v2 := v >>> (32 - bit)
    let w2 := (buf1 (word + 1) &&& notW (maskN len2)) ||| v2
    Function.update buf1 (word + 1) w2
  else
    let w1 := (buffer word &&& notW ((maskN len <<< bit) % 2 ^ 32)) ||| ((v <<< bit) % 2 ^ 32)
    Function.update buffer word w1

theorem maskN_eq (len : Nat) : maskN len = 2 ^ len - 1 := by
  simp [maskN, Nat.one_shiftLeft]

theorem testBit_maskN (len i : Nat) : (maskN len).testBit i = decide (i < len) := by
  rw [maskN_eq]
  exact Nat.testBit_two_pow_sub_one len i

theorem maskN_lt (len : Nat) (h : len ≤ 32) : maskN len < 2 ^ 32 := by
  rw [maskN_eq]
  have h1 : 2 ^ len ≤ 2 ^ 32 := Nat.pow_le_pow_right (by omega) h
  have h2 : 0 < 2 ^ len := Nat.pos_pow_of_pos len (by omega)
  omega

theorem notW_lt (x : Nat) : notW x < 2 ^ 32 := by
  have h1 : x % 2 ^ 32 < 2 ^ 32 := Nat.mod_lt _ (by norm_num)
  have h2 : (2 ^ 32 - 1 : Nat) < 2 ^ 32 := by norm_num
  exact Nat.xor_lt_two_pow h1 h2

theorem testBit_ge_32 {x : Nat} (hx : x < 2 ^ 32) {i : Nat} (hi : 32 ≤ i) :
    x.testBit i = false := by
  apply Nat.testBit_lt_two_pow
  exact Nat.lt_of_lt_of_le hx (Nat.pow_le_pow_right (by omega) hi)

theorem testBit_notW {x : Nat} (hx : x < 2 ^ 32) (i : Nat) :
    (notW x).testBit i = (decide (i < 32) && !(x.testBit i)) := by
  unfold notW
  rw [Nat.testBit_xor, Nat.mod_eq_of_lt hx, Nat.testBit_two_pow_sub_one]
  by_cases hi : i < 32
  · simp [hi]
  · simp [hi, testBit_ge_32 hx (by omega : 32 ≤ i)]

theorem shiftLeft_lt_pow {a m b : Nat} (ha : a < 2 ^ m) : a <<< b < 2 ^ (m + b) := by
  rw [Nat.shiftLeft_eq, Nat.pow_add]
  exact Nat.mul_lt_mul_of_lt_of_le ha (Nat.le_refl _) (Nat.pos_pow_of_pos b (by omega))

theorem write_header_lt (value : Nat) (buffer : Nat → Nat) (offset len : Nat)
    (hbuf : ∀ i, buffer i < 2 ^ 32) :
    ∀ i, write_header value buffer offset len i < 2 ^ 32 := by
  intro i
  have hvs : ((value % 2 ^ 32) <<< (offset % 32)) % 2 ^ 32 < 2 ^ 32 := Nat.mod_lt _ (by norm_num)
  have hand : ∀ a b : Nat, b < 2 ^ 32 → a &&& b < 2 ^ 32 :=
    fun a b hb => Nat.lt_of_le_of_lt (Nat.and_le_right) hb
  have hshr : ∀ a b : Nat, a >>> b ≤ a := by
    intro a b
    rw [Nat.shiftRight_eq_div_pow]
    exact Nat.div_le_self a (2 ^ b)
  have hv2 : (value % 2 ^ 32) >>> (32 - offset % 32) < 2 ^ 32 := by
    have h1 := hshr (value % 2 ^ 32) (32 - offset % 32)
    have h2 : value % 2 ^ 32 < 2 ^ 32 := Nat.mod_lt _ (by norm_num)
    omega
  simp only [write_header]
  split
  · by_cases h1 : i = offset / 32 + 1
    · subst h1
      rw [Function.update_same]
      exact Nat.or_lt_two_pow (hand _ _ (notW_lt _)) hv2
    · rw [Function.update_noteq h1]
      by_cases h2 : i = offset / 32
      · subst h2
        rw [Function.update_same]
        exact Nat.or_lt_two_pow (hand _ _ (notW_lt _)) hvs
      · rw [Function.update_noteq h2]
        exact hbuf i
  · by_cases h2 : i = offset / 32
    · subst h2
      rw [Function.update_same]
      exact Nat.or_lt_two_pow (hand _ _ (notW_lt _)) hvs
    · rw [Function.update_noteq h2]
      exact hbuf i

theorem write_header_bitAt (value : Nat) (buffer : Nat → Nat) (offset len : Nat)
    (hlen1 : 1 ≤ len) (hlen2 : len ≤ 32) (hval : value < 2 ^ len) (k : Nat) :
    bitAt (write_header value buffer offset len) k =
      if offset ≤ k ∧ k < offset + len then value.testBit (k - offset)
      else bitAt buffer k := by
  have hv32 : value < 2 ^ 32 :=
    Nat.lt_of_lt_of_le hval (Nat.pow_le_pow_right (by omega) hlen2)
  have hvmod : value % 2 ^ 32 = value := Nat.mod_eq_of_lt hv32
  have hob : 32 * (offset / 32) + offset % 32 = offset := Nat.div_add_mod offset 32
  have hbitlt : offset % 32 < 32 := Nat.mod_lt _ (by norm_num)
  have hkb : 32 * (k / 32) + k % 32 = k := Nat.div_add_mod k 32
  have hklt : k % 32 < 32 := Nat.mod_lt _ (by norm_num)
  unfold bitAt
  simp only [write_header, hvmod]
  split
  case isTrue hstr =>
    by_cases hk1 : k / 32 = offset / 32 + 1
    · rw [hk1, Function.update_same,
        Function.update_noteq (show offset / 32 + 1 ≠ offset / 32 by omega)]
      have hm2lt : maskN (len + offset % 32 - 32) < 2 ^ 32 := maskN_lt _ (by omega)
      rw [Nat.testBit_or, Nat.testBit_and, testBit_notW hm2lt, testBit_maskN,
        Nat.testBit_shiftRight]
      by_cases hc : k % 32 < len + offset % 32 - 32
      · rw [if_pos (by omega)]
        have hko : k - offset = 32 - offset % 32 + k % 32 := by omega
        rw [hko]
        simp [hklt, hc]
      · rw [if_neg (by omega)]
        have hvb : value.testBit (32 - offset % 32 + k % 32) = false := by
          apply Nat.testBit_lt_two_pow
          exact Nat.lt_of_lt_of_le hval (Nat.pow_le_pow_right (by omega) (by omega))
        simp [hklt, hc, hvb]
    · rw [Function.update_noteq hk1]
      by_cases hk2 : k / 32 = offset / 32
      · rw [hk2, Function.update_same]
        have hm1e : (maskN (32 - offset % 32) <<< (offset % 32)) % 2 ^ 32 =
            maskN (32 - offset % 32) <<< (offset % 32) := by
          apply Nat.mod_eq_of_lt
          have h1 : maskN (32 - offset % 32) < 2 ^ (32 - offset % 32) := by
            rw [maskN_eq]
            exact Nat.sub_lt (Nat.pos_pow_of_pos _ (by omega)) (by omega)
          have h2 := shiftLeft_lt_pow (b := offset % 32) h1
          have h3 : 32 - offset % 32 + offset % 32 = 32 := by omega
          rw [h3] at h2
          exact h2
        rw [hm1e, Nat.testBit_or, Nat.testBit_and]
        have hm1lt : maskN (32 - offset % 32) <<< (offset % 32) < 2 ^ 32 := by
          rw [← hm1e]
          exact Nat.mod_lt _ (by norm_num)
        rw [testBit_notW hm1lt, Nat.testBit_shiftLeft, testBit_maskN,
          Nat.testBit_mod_two_pow, Nat.testBit_shiftLeft]
        by_cases hc : offset % 32 ≤ k % 32
        · rw [if_pos (by omega)]
          have hko : k - offset = k % 32 - offset % 32 := by omega
          rw [hko]
          simp [hklt, hc, Nat.lt_of_lt_of_le (Nat.sub_lt_sub_right hc hklt) (le_refl _)]
        · rw [if_neg (by omega)]
          simp [hklt, hc]
      · rw [Function.update_noteq hk2, if_neg]
        intro hcon
        rcases hcon with ⟨hc1, hc2⟩
        omega
  case isFalse hstr =>
    by_cases hk2 : k / 32 = offset / 32
    · rw [hk2, Function.update_same]
      have hmlt0 : maskN len < 2 ^ len := by
        rw [maskN_eq]
        exact Nat.sub_lt (Nat.pos_pow_of_pos _ (by omega)) (by omega)
      have hme : (maskN len <<< (offset % 32)) % 2 ^ 32 = maskN len <<< (offset % 32) := by
        apply Nat.mod_eq_of_lt
        have h2 := shiftLeft_lt_pow (b := offset % 32) hmlt0
        exact Nat.lt_of_lt_of_le h2 (Nat.pow_le_pow_right (by omega) (by omega))
      have hve : (value <<< (offset % 32)) % 2 ^ 32 = value <<< (offset % 32) := by
        apply Nat.mod_eq_of_lt
        have h2 := shiftLeft_lt_pow (b := offset % 32) hval
        exact Nat.lt_of_lt_of_le h2 (Nat.pow_le_pow_right (by omega) (by omega))
      rw [hme, hve, Nat.testBit_or, Nat.testBit_and]
      have hmlt : maskN len <<< (offset % 32) < 2 ^ 32 := by
        rw [← hme]
        exact Nat.mod_lt _ (by norm_num)
      rw [testBit_notW hmlt, Nat.testBit_shiftLeft, testBit_maskN, Nat.testBit_shiftLeft]
      by_cases hc1 : offset % 32 ≤ k % 32
      · by_cases hc2 : k % 32 - offset % 32 < len
        · rw [if_pos (by omega)]
          have hko : k - offset = k % 32 - offset % 32 := by omega
          rw [hko]
          simp [hklt, hc1, hc2]
        · rw [if_neg (by omega)]
          have hvb : value.testBit (k % 32 - offset % 32) = false := by
            apply Nat.testBit_lt_two_pow
            exact Nat.lt_of_lt_of_le hval (Nat.pow_le_pow_right (by omega) (by omega))
          simp [hklt, hc1, hc2, hvb]
      · rw [if_neg (by omega)]
        simp [hklt, hc1]
    · rw [Function.update_noteq hk2, if_neg]
      intro hcon
      rcases hcon with ⟨hc1, hc2⟩
      omega

theorem write_header_apply_ne (value : Nat) (buffer : Nat → Nat) (offset len w : Nat)
    (h1 : w ≠ offset / 32)
    (h2 : len + offset % 32 ≤ 32 ∨ w ≠ offset / 32 + 1) :
    write_header value buffer offset len w = buffer w := by
  simp only [write_header]
  split
  case isTrue hstr =>
    rcases h2 with h2 | h2
    · omega
    · rw [Function.update_noteq h2, Function.update_noteq h1]
  case isFalse hstr =>
    rw [Function.update_noteq h1]

theorem bitAt_eq_word0 {f : Nat → Nat} {k : Nat} (h : k < 32) :
    bitAt f k = (f 0).testBit k := by
  unfold bitAt
  rw [show k / 32 = 0 by omega, show k % 32 = k by omega]

theorem bitAt_eq_word1 {f : Nat → Nat} {k : Nat} (h1 : 32 ≤ k) (h2 : k < 64) :
    bitAt f k = (f 1).testBit (k - 32) := by
  unfold bitAt
  rw [show k / 32 = 1 by omega, show k % 32 = k - 32 by omega]

/-- C2 counterexample: the claim quantifies over arbitrary, not pre-masked,
32-bit values.  Writing value `2` into a 1-bit field at bit offset 0 of an
all-zero buffer also sets bit 1 of the touched word: the second branch of
`write_header` ORs `value << bit` into the word after clearing only `len`
bits, so the high bits of an unmasked value corrupt bits outside
`[bitOffset, bitOffset+len)`. -/
theorem C2_counterexample :
    bitAt (write_header 2 (fun _ => 0) 0 1) 1 = true ∧
    bitAt (fun _ => 0) 1 = false := by
  constructor
  · decide
  · decide

/-- C2 (amended): for every value whose bits above `len` are zero (pre-masked
value), every buffer, every bit offset and every `1 ≤ len ≤ 32` — including
fields straddling a 32-bit word boundary — after `write_header` the bits in
`[offset, offset+len)` hold the low `len` bits of the value and every other
bit of the buffer (in particular of the touched words) is preserved. -/
theorem C2_write_header_masked_spec (value : Nat) (buffer : Nat → Nat) (offset len : Nat)
    (h1 : 1 ≤ len) (h2 : len ≤ 32) (hv : value < 2 ^ len) :
    (∀ k, offset ≤ k → k < offset + len →
      bitAt (write_header value buffer offset len) k = value.testBit (k - offset)) ∧
    (∀ k, k < offset ∨ offset + len ≤ k →
      bitAt (write_header value buffer offset len) k = bitAt buffer k) := by
  constructor
  · intro k hk1 hk2
    rw [write_header_bitAt value buffer offset len h1 h2 hv k, if_pos ⟨hk1, hk2⟩]
  · intro k hk
    rw [write_header_bitAt value buffer offset len h1 h2 hv k, if_neg (by omega)]

/-- C2 witness: instantiation at value 9, a word-straddling field of 4 bits
at offset 30, over the buffer whose words are all `2 ^ 31`. -/
theorem C2_witness :
    (1 : Nat) ≤ 4 ∧ (4 : Nat) ≤ 32 ∧ (9 : Nat) < 2 ^ 4 ∧
    bitAt (write_header 9 (fun _ => 2 ^ 31) 30 4) 30 = true ∧
    bitAt (write_header 9 (fun _ => 2 ^ 31) 30 4) 31 = false ∧
    bitAt (write_header 9 (fun _ => 2 ^ 31) 30 4) 63 = bitAt (fun _ => 2 ^ 31) 63 := by
  have h := C2_write_header_masked_spec 9 (fun _ => 2 ^ 31) 30 4
    (by norm_num) (by norm_num) (by norm_num)
  refine ⟨by norm_num, by norm_num, by norm_num, ?_, ?_, ?_⟩
  · rw [h.1 30 (by omega) (by omega)]
    decide
  · rw [h.1 31 (by omega) (by omega)]
    decide
  · exact h.2 63 (Or.inr (by omega))

/-- Read `len` bits at bit position `offset` out of the two-word little-endian
bit stream formed by words 0 and 1 of the buffer. -/
def readField (buffer : Nat → Nat) (offset len : Nat) : Nat :=
  ((buffer 0 % 2 ^ 32 + 2 ^ 32 * (buffer 1 % 2 ^ 32)) >>> offset) % 2 ^ len

theorem testBit_two_word {a : Nat} (b : Nat) (ha : a < 2 ^ 32) (k : Nat) :
    (a + 2 ^ 32 * b).testBit k = if k < 32 then a.testBit k else b.testBit (k - 32) := by
  split
  case isTrue hk =>
    have h1 : (a + 2 ^ 32 * b) % 2 ^ 32 = a := by
      rw [Nat.add_mul_mod_self_left, Nat.mod_eq_of_lt ha]
    have h2 := Nat.testBit_mod_two_pow (a + 2 ^ 32 * b) 32 k
    rw [h1] at h2
    simp [hk] at h2
    exact h2.symm
  case isFalse hk =>
    have h1 : (a + 2 ^ 32 * b) >>> 32 = b := by
      rw [Nat.shiftRight_eq_div_pow, Nat.add_mul_div_left _ _ (by norm_num : 0 < 2 ^ 32),
        Nat.div_eq_of_lt ha, Nat.zero_add]
    have h2 : ((a + 2 ^ 32 * b) >>> 32).testBit (k - 32) =
        (a + 2 ^ 32 * b).testBit (32 + (k - 32)) := Nat.testBit_shiftRight _
    rw [h1, show 32 + (k - 32) = k by omega] at h2
    exact h2.symm

/-- C3: for all bit offsets `o < 32` and lengths `1 ≤ l ≤ 32` with `o + l ≤ 64`,
writing a value `v` already masked to `l` bits via `write_header` into a
two-word buffer and reading back the bit range `[o, o+l)` returns `v`, and all
bits outside `[o, o+l)` are unchanged from before the write. -/
theorem C3_write_read_roundtrip (buffer : Nat → Nat) (v o l : Nat)
    (hbuf : ∀ i, buffer i < 2 ^ 32) (ho : o < 32) (hl1 : 1 ≤ l) (hl2 : l ≤ 32)
    (hol : o + l ≤ 64) (hv : v < 2 ^ l) :
    readField (write_header v buffer o l) o l = v ∧
    (∀ k, k < 64 → k < o ∨ o + l ≤ k →
      bitAt (write_header v buffer o l) k = bitAt buffer k) := by
  have hnew := write_header_lt v buffer o l hbuf
  have hbit := write_header_bitAt v buffer o l hl1 hl2 hv
  constructor
  · apply Nat.eq_of_testBit_eq
    intro i
    unfold readField
    rw [Nat.mod_eq_of_lt (hnew 0), Nat.mod_eq_of_lt (hnew 1),
      Nat.testBit_mod_two_pow, Nat.testBit_shiftRight,
      testBit_two_word _ (hnew 0) (o + i)]
    by_cases hi : i < l
    · have hin : o ≤ o + i ∧ o + i < o + l := by omega
      by_cases hw : o + i < 32
      · have h1 : (write_header v buffer o l 0).testBit (o + i) =
            bitAt (write_header v buffer o l) (o + i) := (bitAt_eq_word0 hw).symm
        rw [if_pos hw, h1, hbit (o + i), if_pos hin, show o + i - o = i by omega]
        simp [hi]
      · have h1 : (write_header v buffer o l 1).testBit (o + i - 32) =
            bitAt (write_header v buffer o l) (o + i) :=
          (bitAt_eq_word1 (by omega) (by omega)).symm
        rw [if_neg hw, h1, hbit (o + i), if_pos hin, show o + i - o = i by omega]
        simp [hi]
    · have hvb : v.testBit i = false := by
        apply Nat.testBit_lt_two_pow
        exact Nat.lt_of_lt_of_le hv (Nat.pow_le_pow_right (by omega) (by omega))
      simp [hi, hvb]
  · intro k _ hk
    rw [hbit k, if_neg (by omega)]

/-- C3 witness: a straddling 8-bit field at offset 28 over a two-word buffer,
value `0xa5`, reads back exactly and leaves bit 0 and bit 63 untouched. -/
theorem C3_witness :
    (28 : Nat) < 32 ∧ (1 : Nat) ≤ 8 ∧ (8 : Nat) ≤ 32 ∧ (28 + 8 : Nat) ≤ 64 ∧
    (0xa5 : Nat) < 2 ^ 8 ∧
    readField (write_header 0xa5 (fun _ => 0xffffffff) 28 8) 28 8 = 0xa5 ∧
    bitAt (write_header 0xa5 (fun _ => 0xffffffff) 28 8) 0 =
      bitAt (fun _ => 0xffffffff) 0 ∧
    bitAt (write_header 0xa5 (fun _ => 0xffffffff) 28 8) 63 =
      bitAt (fun _ => 0xffffffff) 63 := by
  have h := C3_write_read_roundtrip (fun _ => 0xffffffff) 0xa5 28 8
    (fun i => by norm_num) (by norm_num) (by norm_num) (by norm_num)
    (by norm_num) (by norm_num)
  exact ⟨by norm_num, by norm_num, by norm_num, by norm_num, by norm_num,
    h.1, h.2 0 (by omega) (by omega), h.2 63 (by omega) (by omega)⟩

/-- A sequence of `write_header` calls, each given as (value, bit offset, bit
length), applied in order to a word buffer. -/
def apply_writes (writes : List (Nat × Nat × Nat)) (buffer : Nat → Nat) : Nat → Nat :=
  writes.foldl (fun b w => write_header w.1 b w.2.1 w.2.2) buffer

/-- Well-formed write request: legal field length and pre-masked value. -/
def WfWrite (w : Nat × Nat × Nat) : Prop :=
  1 ≤ w.2.2 ∧ w.2.2 ≤ 32 ∧ w.1 < 2 ^ w.2.2

/-- Two write requests touch disjoint bit ranges. -/
def WriteDisjoint (w w' : Nat × Nat × Nat) : Prop :=
  w.2.1 + w.2.2 ≤ w'.2.1 ∨ w'.2.1 + w'.2.2 ≤ w.2.1

theorem apply_writes_nil (buffer : Nat → Nat) : apply_writes [] buffer = buffer := rfl

theorem apply_writes_cons (u : Nat × Nat × Nat) (L : List (Nat × Nat × Nat))
    (buffer : Nat → Nat) :
    apply_writes (u :: L) buffer = apply_writes L (write_header u.1 buffer u.2.1 u.2.2) := rfl

theorem apply_writes_lt (L : List (Nat × Nat × Nat)) (buffer : Nat → Nat)
    (hbuf : ∀ i, buffer i < 2 ^ 32) : ∀ i, apply_writes L buffer i < 2 ^ 32 := by
  induction L generalizing buffer with
  | nil => exact hbuf
  | cons u L ih =>
    rw [apply_writes_cons]
    exact ih _ (write_header_lt u.1 buffer u.2.1 u.2.2 hbuf)

theorem apply_writes_bitAt_out (L : List (Nat × Nat × Nat)) (buffer : Nat → Nat) (k : Nat)
    (hwf : ∀ w ∈ L, WfWrite w)
    (hout : ∀ w ∈ L, k < w.2.1 ∨ w.2.1 + w.2.2 ≤ k) :
    bitAt (apply_writes L buffer) k = bitAt buffer k := by
  induction L generalizing buffer with
  | nil => rfl
  | cons u L ih =>
    rw [apply_writes_cons]
    have hu := hwf u (List.mem_cons_self u L)
    rw [ih _ (fun w hw => hwf w (List.mem_cons_of_mem u hw))
      (fun w hw => hout w (List.mem_cons_of_mem u hw))]
    rw [write_header_bitAt u.1 buffer u.2.1 u.2.2 hu.1 hu.2.1 hu.2.2 k]
    rw [if_neg]
    have := hout u (List.mem_cons_self u L)
    omega

theorem apply_writes_bitAt_mem (L : List (Nat × Nat × Nat)) (buffer : Nat → Nat)
    (w : Nat × Nat × Nat) (k : Nat)
    (hdisj : L.Pairwise WriteDisjoint)
    (hwf : ∀ u ∈ L, WfWrite u)
    (hmem : w ∈ L) (hk1 : w.2.1 ≤ k) (hk2 : k < w.2.1 + w.2.2) :
    bitAt (apply_writes L buffer) k = w.1.testBit (k - w.2.1) := by
  induction L generalizing buffer with
  | nil => cases hmem
  | cons u L ih =>
    rw [apply_writes_cons]
    rcases List.mem_cons.mp hmem with heq | hmemL
    · subst heq
      have hu := hwf w (List.mem_cons_self w L)
      rw [apply_writes_bitAt_out L _ k (fun u hu' => hwf u (List.mem_cons_of_mem w hu'))]
      · rw [write_header_bitAt w.1 buffer w.2.1 w.2.2 hu.1 hu.2.1 hu.2.2 k,
          if_pos ⟨hk1, hk2⟩]
      · intro u hu'
        have hd : WriteDisjoint w u := (List.pairwise_cons.mp hdisj).1 u hu'
        unfold WriteDisjoint at hd
        omega
    · exact ih _ (List.pairwise_cons.mp hdisj).2
        (fun u hu' => hwf u (List.mem_cons_of_mem _ hu')) hmemL

/-- DPB entry flag values from the V4L2 stateless-H.264 controls header of
this kernel tree (the uapi header is not among the extracted sources; these
are the standard constants the source tests against). -/
def V4L2_H264_DPB_ENTRY_FLAG_VALID : Nat := 0x01

/-- See V4L2_H264_DPB_ENTRY_FLAG_VALID. -/
def V4L2_H264_DPB_ENTRY_FLAG_ACTIVE : Nat := 0x02

/-- See V4L2_H264_DPB_ENTRY_FLAG_VALID. -/
def V4L2_H264_DPB_ENTRY_FLAG_LONG_TERM : Nat := 0x04

/-- One entry of the decoded picture buffer (`struct v4l2_h264_dpb_entry`),
restricted to the fields the decoder core reads. -/
structure DpbEntry where
  flags : Nat
  pic_num : Nat
  frame_num : Nat
  top_field_order_cnt : Nat
  bottom_field_order_cnt : Nat

/-- The test `dpb[i].flags & V4L2_H264_DPB_ENTRY_FLAG_ACTIVE` of the source. -/
def dpbActive (e : DpbEntry) : Bool :=
  e.flags &&& V4L2_H264_DPB_ENTRY_FLAG_ACTIVE != 0

/-- Per-frame decode parameters (`struct v4l2_ctrl_h264_decode_params`),
restricted to the fields the decoder core reads.  The DPB has 16 entries and
each reference picture list 32 entries; out-of-range indices are never read
by the embedded code. -/
structure DecodeParams where
  dpb : Nat → DpbEntry
  ref_pic_list_p0 : Nat → Nat
  ref_pic_list_b0 : Nat → Nat
  ref_pic_list_b1 : Nat → Nat
  top_field_order_cnt : Nat
  bottom_field_order_cnt : Nat

/-- RKV_RPS_SIZE: the RPS region of the auxiliary buffer is `u8 rps[128+128]`,
256 bytes, i.e. 64 32-bit words. -/
def RKV_RPS_SIZE : Nat := 128 + 128

/-- The `memset(hw_rps, 0, RKV_RPS_SIZE)` at the top of `assemble_hw_rps`:
zero the 64 words of the RPS region. -/
def memset_rps (buffer : Nat → Nat) : Nat → Nat :=
  fun w => if w < 64 then 0 else buffer w

/-- The value the first RPS pass stores for DPB slot `i`: the entry's pic_num
if the entry is active, else the sentinel 0xff; truncated to 16 bits by the
store through the `u16 *` view. -/
def rps_pic_num_value (e : DpbEntry) : Nat :=
  (if dpbActive e then e.pic_num else 0xff) % 2 ^ 16

/-- First pass of `assemble_hw_rps`: `p[i] = active ? pic_num : 0xff` for the
16 DPB slots, `p` being a `u16 *` view of the RPS region.  On the
little-endian bit stream, halfword `i` is the 16-bit field at bit `16*i`. -/
def rps_pass1_writes (dpb : Nat → DpbEntry) : List (Nat × Nat × Nat) :=
  (List.range 16).map fun i => (rps_pic_num_value (dpb i), 16 * i, 16)

/-- Modelled from the spec: `DPB_INFO_OFF(i, j)` and `DPB_INFO_LEN` come from
rk3399_vdec_regs.h, which is not among the extracted sources.  Per the spec
each (position, list) pair has its own position-and-list-specific bit offset,
in list-major position-minor scan order, and the packed value
`dpbIndex | validBit << 4` needs 5 bits; the fields are modelled as disjoint
5-bit fields following the 16 pic_num halfwords of the RPS region. -/
def DPB_INFO_OFF (i j : Nat) : Nat := 16 * 16 + 5 * (32 * j + i)

/-- Modelled from the spec, see DPB_INFO_OFF. -/
def DPB_INFO_LEN : Nat := 5

/-- The `switch (j)` of the reference-list pass: list 0 is P0, list 1 is B0,
list 2 is B1. -/
def ref_pic_list (dec : DecodeParams) (j : Nat) : Nat → Nat :=
  match j with
  | 0 => dec.ref_pic_list_p0
  | 1 => dec.ref_pic_list_b0
  | _ => dec.ref_pic_list_b1

/-- The `dpb_valid = !!(dpb[idx].flags & V4L2_H264_DPB_ENTRY_FLAG_ACTIVE)` of
the reference-list pass. -/
def dpb_valid (dec : DecodeParams) (idx : Nat) : Nat :=
  if dpbActive (dec.dpb idx) then 1 else 0

/-- Second pass of `assemble_hw_rps`, as the ordered list of `write_header`
requests it issues: for each list `j < 3` and position `i < 32`, read
`idx` from the corresponding reference list; if `idx` is out of the DPB
range (>= 16, `ARRAY_SIZE(dec_param->dpb)`) skip, otherwise write
`idx | dpb_valid << 4` at `DPB_INFO_OFF(i, j)`. -/
def rps_ref_writes (dec : DecodeParams) : List (Nat × Nat × Nat) :=
  (List.range 3).flatMap fun j =>
    (List.range 32).filterMap fun i =>
      let idx := ref_pic_list dec j i
      if idx ≥ 16 then none
      else some (Nat.lor idx (dpb_valid dec idx <<< 4), DPB_INFO_OFF i j, DPB_INFO_LEN)

/-- `assemble_hw_rps` (part_000, lines 321-370): zero the RPS region, store
the 16 pic_num halfwords, then apply the reference-list writes. -/
def assemble_hw_rps (dec : DecodeParams) (buffer : Nat → Nat) : Nat → Nat :=
  apply_writes (rps_ref_writes dec)
    (apply_writes (rps_pass1_writes dec.dpb) (memset_rps buffer))

/-- Little-endian read-back of the u16 at halfword index `i` of a word
buffer. -/
def read_u16 (buffer : Nat → Nat) (i : Nat) : Nat :=
  (buffer (i / 2) >>> (16 * (i % 2))) % 2 ^ 16

theorem mem_rps_pass1_writes {dpb : Nat → DpbEntry} {w : Nat × Nat × Nat} :
    w ∈ rps_pass1_writes dpb ↔
      ∃ i, i < 16 ∧ w = (rps_pic_num_value (dpb i), 16 * i, 16) := by
  unfold rps_pass1_writes
  simp only [List.mem_map, List.mem_range]
  constructor
  · rintro ⟨i, hi, rfl⟩
    exact ⟨i, hi, rfl⟩
  · rintro ⟨i, hi, rfl⟩
    exact ⟨i, hi, rfl⟩

theorem mem_rps_ref_writes {dec : DecodeParams} {w : Nat × Nat × Nat} :
    w ∈ rps_ref_writes dec ↔
      ∃ j, j < 3 ∧ ∃ i, i < 32 ∧ ref_pic_list dec j i < 16 ∧
        w = (Nat.lor (ref_pic_list dec j i)
               (dpb_valid dec (ref_pic_list dec j i) <<< 4),
             DPB_INFO_OFF i j, DPB_INFO_LEN) := by
  unfold rps_ref_writes
  simp only [List.mem_flatMap, List.mem_filterMap, List.mem_range]
  constructor
  · rintro ⟨j, hj, i, hi, hsome⟩
    by_cases hc : ref_pic_list dec j i ≥ 16
    · simp [hc] at hsome
    · simp [hc] at hsome
      exact ⟨j, hj, i, hi, by omega, hsome.symm⟩
  · rintro ⟨j, hj, i, hi, hlt, rfl⟩
    refine ⟨j, hj, i, hi, ?_⟩
    simp [show ¬(ref_pic_list dec j i ≥ 16) by omega]

theorem rps_ref_writes_wf {dec : DecodeParams} :
    ∀ w ∈ rps_ref_writes dec, WfWrite w := by
  intro w hw
  rcases mem_rps_ref_writes.mp hw with ⟨j, hj, i, hi, hlt, rfl⟩
  refine ⟨by norm_num [DPB_INFO_LEN], by norm_num [DPB_INFO_LEN], ?_⟩
  show Nat.lor _ _ < 2 ^ DPB_INFO_LEN
  have h1 : ref_pic_list dec j i < 2 ^ 5 := by omega
  have h2 : dpb_valid dec (ref_pic_list dec j i) <<< 4 < 2 ^ 5 := by
    unfold dpb_valid
    split <;> decide
  have := Nat.or_lt_two_pow h1 h2
  simpa [DPB_INFO_LEN] using this

theorem rps_pass1_writes_wf {dpb : Nat → DpbEntry} :
    ∀ w ∈ rps_pass1_writes dpb, WfWrite w := by
  intro w hw
  rcases mem_rps_pass1_writes.mp hw with ⟨i, hi, rfl⟩
  refine ⟨by norm_num, by norm_num, ?_⟩
  show rps_pic_num_value (dpb i) < 2 ^ 16
  exact Nat.mod_lt _ (by norm_num)

/-- Strict emission order of two write requests: the first one ends before
the second one starts. -/
def WriteBefore (w w' : Nat × Nat × Nat) : Prop :=
  w.2.1 + w.2.2 ≤ w'.2.1 ∧ w.2.1 < w'.2.1

theorem rps_ref_writes_pairwise {dec : DecodeParams} :
    (rps_ref_writes dec).Pairwise WriteBefore := by
  have hblk : ∀ j : Nat, ((List.range 32).filterMap fun i =>
      let idx := ref_pic_list dec j i
      if idx ≥ 16 then none
      else some (Nat.lor idx (dpb_valid dec idx <<< 4),
        DPB_INFO_OFF i j, DPB_INFO_LEN)).Pairwise WriteBefore := by
    intro j
    apply List.Pairwise.filterMap _ _ ((List.pairwise_lt_range 32).imp id)
    intro a b hab x hx y hy
    simp only at hx hy
    by_cases hca : ref_pic_list dec j a ≥ 16
    · simp [hca] at hx
    by_cases hcb : ref_pic_list dec j b ≥ 16
    · simp [hcb] at hy
    simp [hca] at hx
    simp [hcb] at hy
    unfold WriteBefore
    rw [← hx, ← hy]
    simp only [DPB_INFO_OFF, DPB_INFO_LEN]
    omega
  have hmem : ∀ j : Nat, ∀ w ∈ ((List.range 32).filterMap fun i =>
      let idx := ref_pic_list dec j i
      if idx ≥ 16 then none
      else some (Nat.lor idx (dpb_valid dec idx <<< 4),
        DPB_INFO_OFF i j, DPB_INFO_LEN)), ∃ i, i < 32 ∧
        w.2.1 = DPB_INFO_OFF i j ∧ w.2.2 = DPB_INFO_LEN := by
    intro j w hw
    rcases List.mem_filterMap.mp hw with ⟨i, hi, hsome⟩
    rw [List.mem_range] at hi
    by_cases hc : ref_pic_list dec j i ≥ 16
    · simp [hc] at hsome
    · simp [hc] at hsome
      exact ⟨i, hi, by rw [← hsome], by rw [← hsome]⟩
  have hrw : rps_ref_writes dec =
      ((List.range 32).filterMap fun i =>
        let idx := ref_pic_list dec 0 i
        if idx ≥ 16 then none
        else some (Nat.lor idx (dpb_valid dec idx <<< 4),
          DPB_INFO_OFF i 0, DPB_INFO_LEN)) ++
      (((List.range 32).filterMap fun i =>
        let idx := ref_pic_list dec 1 i
        if idx ≥ 16 then none
        else some (Nat.lor idx (dpb_valid dec idx <<< 4),
          DPB_INFO_OFF i 1, DPB_INFO_LEN)) ++
      (((List.range 32).filterMap fun i =>
        let idx := ref_pic_list dec 2 i
        if idx ≥ 16 then none
        else some (Nat.lor idx (dpb_valid dec idx <<< 4),
          DPB_INFO_OFF i 2, DPB_INFO_LEN)) ++ [])) := by
    show rps_ref_writes dec = _
    unfold rps_ref_writes
    rw [show List.range 3 = [0, 1, 2] from rfl]
    rw [List.flatMap_cons, List.flatMap_cons, List.flatMap_cons, List.flatMap_nil]
  rw [hrw]
  rw [List.pairwise_append]
  refine ⟨hblk 0, ?_, ?_⟩
  · rw [List.pairwise_append]
    refine ⟨hblk 1, ?_, ?_⟩
    · rw [List.pairwise_append]
      refine ⟨hblk 2, List.Pairwise.nil, by intro a ha b hb; cases hb⟩
    · intro a ha b hb
      rcases List.mem_append.mp hb with hb | hb
      · rcases hmem 1 a ha with ⟨i1, hi1, ho1, hl1⟩
        rcases hmem 2 b hb with ⟨i2, hi2, ho2, hl2⟩
        unfold WriteBefore
        rw [ho1, ho2, hl1]
        simp only [DPB_INFO_OFF, DPB_INFO_LEN]
        omega
      · cases hb
  · intro a ha b hb
    rcases hmem 0 a ha with ⟨i1, hi1, ho1, hl1⟩
    rcases List.mem_append.mp hb with hb | hb
    · rcases hmem 1 b hb with ⟨i2, hi2, ho2, hl2⟩
      unfold WriteBefore
      rw [ho1, ho2, hl1]
      simp only [DPB_INFO_OFF, DPB_INFO_LEN]
      omega
    · rcases List.mem_append.mp hb with hb | hb
      · rcases hmem 2 b hb with ⟨i2, hi2, ho2, hl2⟩
        unfold WriteBefore
        rw [ho1, ho2, hl1]
        simp only [DPB_INFO_OFF, DPB_INFO_LEN]
        omega
      · cases hb

theorem rps_pass1_writes_pairwise (dpb : Nat → DpbEntry) :
    (rps_pass1_writes dpb).Pairwise WriteBefore := by
  unfold rps_pass1_writes
  rw [List.pairwise_map]
  apply (List.pairwise_lt_range 16).imp
  intro a b hab
  exact ⟨by show 16 * a + 16 ≤ 16 * b; omega, by show 16 * a < 16 * b; omega⟩

theorem rps_all_writes_wf (dec : DecodeParams) :
    ∀ w ∈ rps_pass1_writes dec.dpb ++ rps_ref_writes dec, WfWrite w := by
  intro w hw
  rcases List.mem_append.mp hw with h | h
  · exact rps_pass1_writes_wf w h
  · exact rps_ref_writes_wf w h

theorem rps_all_writes_pairwise (dec : DecodeParams) :
    (rps_pass1_writes dec.dpb ++ rps_ref_writes dec).Pairwise WriteDisjoint := by
  rw [List.pairwise_append]
  refine ⟨(rps_pass1_writes_pairwise dec.dpb).imp (fun h => Or.inl h.1),
    rps_ref_writes_pairwise.imp (fun h => Or.inl h.1), ?_⟩
  intro a ha b hb
  rcases mem_rps_pass1_writes.mp ha with ⟨i, hi, rfl⟩
  rcases mem_rps_ref_writes.mp hb with ⟨j, hj, i2, hi2, hlt, rfl⟩
  left
  show 16 * i + 16 ≤ DPB_INFO_OFF i2 j
  unfold DPB_INFO_OFF
  omega

theorem assemble_hw_rps_eq (dec : DecodeParams) (buffer : Nat → Nat) :
    assemble_hw_rps dec buffer =
      apply_writes (rps_pass1_writes dec.dpb ++ rps_ref_writes dec) (memset_rps buffer) := by
  unfold assemble_hw_rps apply_writes
  rw [List.foldl_append]

theorem read_u16_assemble (dec : DecodeParams) (buffer : Nat → Nat) (i : Nat) (hi : i < 16) :
    read_u16 (assemble_hw_rps dec buffer) i = rps_pic_num_value (dec.dpb i) := by
  rw [assemble_hw_rps_eq]
  apply Nat.eq_of_testBit_eq
  intro t
  unfold read_u16
  rw [Nat.testBit_mod_two_pow, Nat.testBit_shiftRight]
  by_cases ht : t < 16
  · have hb : (apply_writes (rps_pass1_writes dec.dpb ++ rps_ref_writes dec)
        (memset_rps buffer) (i / 2)).testBit (16 * (i % 2) + t) =
        bitAt (apply_writes (rps_pass1_writes dec.dpb ++ rps_ref_writes dec)
          (memset_rps buffer)) (16 * i + t) := by
      unfold bitAt
      rw [show (16 * i + t) / 32 = i / 2 by omega,
        show (16 * i + t) % 32 = 16 * (i % 2) + t by omega]
    rw [hb, apply_writes_bitAt_mem _ _ (rps_pic_num_value (dec.dpb i), 16 * i, 16)
      (16 * i + t) (rps_all_writes_pairwise dec) (rps_all_writes_wf dec)
      (List.mem_append_left _ (mem_rps_pass1_writes.mpr ⟨i, hi, rfl⟩))
      (by show 16 * i ≤ 16 * i + t; omega)
      (by show 16 * i + t < 16 * i + 16; omega)]
    simp [ht, show 16 * i + t - 16 * i = t by omega]
  · have hv : (rps_pic_num_value (dec.dpb i)).testBit t = false := by
      apply Nat.testBit_lt_two_pow
      have h1 : rps_pic_num_value (dec.dpb i) < 2 ^ 16 := Nat.mod_lt _ (by norm_num)
      exact Nat.lt_of_lt_of_le h1 (Nat.pow_le_pow_right (by omega) (by omega))
    simp [ht, hv]

/-- C1: for every call to the RPS assembler and every DPB slot `i < 16`, the
16-bit pic_num halfword the assembler leaves for slot `i` equals the DPB
entry's pic_num when the entry's active flag is set, and equals the sentinel
0xff — never 0 — when the active flag is clear. -/
theorem C1_rps_sentinel (dec : DecodeParams) (buffer : Nat → Nat) (i : Nat) (hi : i < 16) :
    (dpbActive (dec.dpb i) = true → (dec.dpb i).pic_num < 2 ^ 16 →
      read_u16 (assemble_hw_rps dec buffer) i = (dec.dpb i).pic_num) ∧
    (dpbActive (dec.dpb i) = false →
      read_u16 (assemble_hw_rps dec buffer) i = 0xff ∧
      read_u16 (assemble_hw_rps dec buffer) i ≠ 0) := by
  have h := read_u16_assemble dec buffer i hi
  constructor
  · intro ha hp
    rw [h]
    unfold rps_pic_num_value
    rw [ha, if_pos rfl]
    exact Nat.mod_eq_of_lt hp
  · intro ha
    rw [h]
    unfold rps_pic_num_value
    rw [ha]
    exact ⟨by norm_num, by norm_num⟩

/-- Sample DPB for the witnesses: slot 0 is valid, active, with pic_num 3;
every other slot is unused. -/
def sampleDpb : Nat → DpbEntry := fun i =>
  if i = 0 then
    { flags := V4L2_H264_DPB_ENTRY_FLAG_VALID + V4L2_H264_DPB_ENTRY_FLAG_ACTIVE,
      pic_num := 3, frame_num := 3,
      top_field_order_cnt := 6, bottom_field_order_cnt := 6 }
  else
    { flags := 0, pic_num := 0, frame_num := 0,
      top_field_order_cnt := 0, bottom_field_order_cnt := 0 }

/-- Sample decode parameters: P0 reference list selects DPB slot 0 at
position 0 and is otherwise terminated by out-of-range 0xff entries. -/
def sampleDec : DecodeParams :=
  { dpb := sampleDpb,
    ref_pic_list_p0 := fun i => if i = 0 then 0 else 0xff,
    ref_pic_list_b0 := fun _ => 0xff,
    ref_pic_list_b1 := fun _ => 0xff,
    top_field_order_cnt := 6, bottom_field_order_cnt := 6 }

/-- C1 witness: on the sample decode parameters, slot 0 (active, pic_num 3)
reads back 3 and slot 1 (inactive) reads back the 0xff sentinel. -/
theorem C1_witness :
    (0 : Nat) < 16 ∧ (1 : Nat) < 16 ∧
    dpbActive (sampleDec.dpb 0) = true ∧ (sampleDec.dpb 0).pic_num < 2 ^ 16 ∧
    read_u16 (assemble_hw_rps sampleDec (fun _ => 0)) 0 = 3 ∧
    dpbActive (sampleDec.dpb 1) = false ∧
    read_u16 (assemble_hw_rps sampleDec (fun _ => 0)) 1 = 0xff := by
  have h0 := (C1_rps_sentinel sampleDec (fun _ => 0) 0 (by norm_num)).1
    (by decide) (by decide)
  have h1 := ((C1_rps_sentinel sampleDec (fun _ => 0) 1 (by norm_num)).2 (by decide)).1
  refine ⟨by norm_num, by norm_num, by decide, by decide, ?_, by decide, h1⟩
  rw [h0]
  decide

/-- C4: in the reference-list pass of the RPS assembler, for each list
`j < 3` (P0, B0, B1) and position `i < 32`, a DPB-info field is written if
and only if the reference-list entry at that position is < 16 (out-of-range
indices produce no write), every written field's value equals
`dpbIndex | validBit << 4` with `validBit` the active flag of the DPB entry
at `dpbIndex`, and no field is written twice (all emitted field offsets are
distinct). -/
theorem C4_ref_list_writes (dec : DecodeParams) (i j : Nat) (hi : i < 32) (hj : j < 3) :
    ((∃ w ∈ rps_ref_writes dec, w.2.1 = DPB_INFO_OFF i j) ↔
      ref_pic_list dec j i < 16) ∧
    (∀ w ∈ rps_ref_writes dec, w.2.1 = DPB_INFO_OFF i j →
      w.1 = Nat.lor (ref_pic_list dec j i)
        (dpb_valid dec (ref_pic_list dec j i) <<< 4)) ∧
    ((rps_ref_writes dec).map (fun w => w.2.1)).Nodup := by
  have hinj : ∀ i2 j2, i2 < 32 → j2 < 3 →
      DPB_INFO_OFF i2 j2 = DPB_INFO_OFF i j → i2 = i ∧ j2 = j := by
    intro i2 j2 hi2 hj2 he
    unfold DPB_INFO_OFF at he
    omega
  refine ⟨⟨?_, ?_⟩, ?_, ?_⟩
  · rintro ⟨w, hw, hoff⟩
    rcases mem_rps_ref_writes.mp hw with ⟨j2, hj2, i2, hi2, hlt, rfl⟩
    obtain ⟨rfl, rfl⟩ := hinj i2 j2 hi2 hj2 hoff
    exact hlt
  · intro hlt
    exact ⟨_, mem_rps_ref_writes.mpr ⟨j, hj, i, hi, hlt, rfl⟩, rfl⟩
  · intro w hw hoff
    rcases mem_rps_ref_writes.mp hw with ⟨j2, hj2, i2, hi2, hlt, rfl⟩
    obtain ⟨rfl, rfl⟩ := hinj i2 j2 hi2 hj2 hoff
    rfl
  · show ((rps_ref_writes dec).map (fun w => w.2.1)).Pairwise (· ≠ ·)
    exact List.pairwise_map.mpr (rps_ref_writes_pairwise.imp (fun h => Nat.ne_of_lt h.2))

/-- C4 witness: on the sample decode parameters, position 0 of list P0 (DPB
index 0, in range) is written, position 1 (entry 0xff, out of range) is not,
the written value packs index 0 with valid bit 1, and the emitted offsets
are distinct. -/
theorem C4_witness :
    (0 : Nat) < 32 ∧ (1 : Nat) < 32 ∧ (0 : Nat) < 3 ∧
    (∃ w ∈ rps_ref_writes sampleDec, w.2.1 = DPB_INFO_OFF 0 0) ∧
    ¬(∃ w ∈ rps_ref_writes sampleDec, w.2.1 = DPB_INFO_OFF 1 0) ∧
    (∀ w ∈ rps_ref_writes sampleDec, w.2.1 = DPB_INFO_OFF 0 0 → w.1 = 16) ∧
    ((rps_ref_writes sampleDec).map (fun w => w.2.1)).Nodup := by
  have h0 := C4_ref_list_writes sampleDec 0 0 (by norm_num) (by norm_num)
  have h1 := C4_ref_list_writes sampleDec 1 0 (by norm_num) (by norm_num)
  refine ⟨by norm_num, by norm_num, by norm_num, h0.1.mpr (by decide), ?_, ?_, h0.2.2⟩
  · intro hc
    have := h1.1.mp hc
    revert this
    decide
  · intro w hw hoff
    have := h0.2.1 w hw hoff
    rw [this]
    decide

/-- C10: the RPS assembler zeroes the whole 256-byte RPS region before the
two passes, so after every call (first conjunct) every bit of the region
past the 16 pic_num halfwords that lies outside all emitted reference-list
fields is zero, and (second conjunct) every DPB-info position whose
reference-list entry was out of range reads back as zero bits — no data from
a previous frame's assembly survives. -/
theorem C10_rps_region_zero (dec : DecodeParams) (buffer : Nat → Nat) :
    (∀ k, 256 ≤ k → k < 2048 →
      (∀ w ∈ rps_ref_writes dec, k < w.2.1 ∨ w.2.1 + w.2.2 ≤ k) →
      bitAt (assemble_hw_rps dec buffer) k = false) ∧
    (∀ i j t, i < 32 → j < 3 → 16 ≤ ref_pic_list dec j i → t < 5 →
      bitAt (assemble_hw_rps dec buffer) (DPB_INFO_OFF i j + t) = false) := by
  have hzero : ∀ k, k < 2048 → bitAt (memset_rps buffer) k = false := by
    intro k hk
    unfold bitAt memset_rps
    rw [if_pos (by omega : k / 32 < 64)]
    simp
  have main : ∀ k, 256 ≤ k → k < 2048 →
      (∀ w ∈ rps_ref_writes dec, k < w.2.1 ∨ w.2.1 + w.2.2 ≤ k) →
      bitAt (assemble_hw_rps dec buffer) k = false := by
    intro k h1 h2 hout
    rw [assemble_hw_rps_eq, apply_writes_bitAt_out _ _ _ (rps_all_writes_wf dec)]
    · exact hzero k h2
    · intro w hw
      rcases List.mem_append.mp hw with h | h
      · rcases mem_rps_pass1_writes.mp h with ⟨i, hi, rfl⟩
        right
        show 16 * i + 16 ≤ k
        omega
      · exact hout w h
  refine ⟨main, ?_⟩
  intro i j t hi hj hge ht
  apply main
  · unfold DPB_INFO_OFF
    omega
  · unfold DPB_INFO_OFF
    omega
  · intro w hw
    rcases mem_rps_ref_writes.mp hw with ⟨j2, hj2, i2, hi2, hlt, rfl⟩
    show DPB_INFO_OFF i j + t < DPB_INFO_OFF i2 j2 ∨
      DPB_INFO_OFF i2 j2 + DPB_INFO_LEN ≤ DPB_INFO_OFF i j + t
    have hd : 32 * j2 + i2 ≠ 32 * j + i := by
      intro hc
      have hi2i : i2 = i := by omega
      have hj2j : j2 = j := by omega
      rw [hi2i, hj2j] at hlt
      omega
    unfold DPB_INFO_OFF DPB_INFO_LEN
    omega

/-- C10 witness: on the sample decode parameters, the skipped DPB-info
position (1, 0) reads back zero, and so does a bit of the tail of the region
past every emitted write. -/
theorem C10_witness :
    (1 : Nat) < 32 ∧ (0 : Nat) < 3 ∧ 16 ≤ ref_pic_list sampleDec 0 1 ∧ (0 : Nat) < 5 ∧
    bitAt (assemble_hw_rps sampleDec (fun _ => 0xffffffff)) (DPB_INFO_OFF 1 0) = false ∧
    bitAt (assemble_hw_rps sampleDec (fun _ => 0xffffffff)) 1000 = false := by
  have h := C10_rps_region_zero sampleDec (fun _ => 0xffffffff)
  refine ⟨by norm_num, by norm_num, by decide, by norm_num, ?_, ?_⟩
  · have h2 := h.2 1 0 0 (by norm_num) (by norm_num) (by decide) (by norm_num)
    simpa using h2
  · exact h.1 1000 (by norm_num) (by norm_num) (by decide)

/-- The 4x4 zig-zag table of the source (part_000, lines 377-379). -/
def zig_zag_4x4 : List Nat :=
  [0, 1, 4, 8, 5, 2, 3, 6, 9, 12, 13, 10, 7, 11, 14, 15]

/-- The 8x8 zig-zag table of the source (part_000, lines 381-386). -/
def zig_zag_8x8 : List Nat :=
  [0,  1,  8, 16,  9,  2,  3, 10, 17, 24, 32, 25, 18, 11,  4,  5,
   12, 19, 26, 33, 40, 48, 41, 34, 27, 20, 13,  6,  7, 14, 21, 28,
   35, 42, 49, 56, 57, 50, 43, 36, 29, 22, 15, 23, 30, 37, 44, 51,
   58, 59, 52, 45, 38, 31, 39, 46, 53, 60, 61, 54, 47, 55, 62, 63]

/-- One inner loop of `reorder_scaling_list`: `dst[zig[j]] = src[j]` for each
remaining table entry, with `dbase`/`sbase` the current dst/src positions of
the byte region (modelled as a function from byte index to byte) and `j` the
running coefficient counter. -/
def reorder_go (zig : List Nat) (src : Nat → Nat) (d : Nat → Nat)
    (dbase sbase j : Nat) : Nat → Nat :=
  match zig with
  | [] => d
  | z :: rest =>
    reorder_go rest src (Function.update d (dbase + z) (src (sbase + j))) dbase sbase (j + 1)

/-- The outer loops of `reorder_scaling_list`: process `n` consecutive lists
of `len` bytes each, advancing both the src and dst positions by `len` after
each list (`src += list_len; dst += list_len`). -/
def reorder_many (zig : List Nat) (len : Nat) (src : Nat → Nat) (d : Nat → Nat)
    (dbase sbase : Nat) : Nat → Nat → Nat
  | 0 => d
  | Nat.succ m =>
    reorder_many zig len src (reorder_go zig src d dbase sbase 0) (dbase + len) (sbase + len) m

/-- `reorder_scaling_list` (part_000, lines 388-422): de-zig-zag the 6 4x4
lists (16 bytes each) into the start of the scaling-list region, then the 6
8x8 lists (64 bytes each) contiguously after them.  `s4` and `s8` are the
flattened `scaling_list_4x4` / `scaling_list_8x8` source arrays. -/
def reorder_scaling_list (s4 s8 : Nat → Nat) (dst : Nat → Nat) : Nat → Nat :=
  reorder_many zig_zag_8x8 64 s8 (reorder_many zig_zag_4x4 16 s4 dst 0 0 6) 96 0 6

theorem reorder_go_out (zig : List Nat) (src : Nat → Nat) (d : Nat → Nat)
    (dbase sbase j k : Nat) (h : ∀ z ∈ zig, dbase + z ≠ k) :
    reorder_go zig src d dbase sbase j k = d k := by
  induction zig generalizing d j with
  | nil => rfl
  | cons z rest ih =>
    show reorder_go rest src _ dbase sbase (j + 1) k = d k
    rw [ih _ (j + 1) (fun z' hz' => h z' (List.mem_cons_of_mem z hz'))]
    exact Function.update_noteq (fun hc => h z (List.mem_cons_self z rest) hc.symm) _ d

theorem reorder_go_at (zig : List Nat) (src : Nat → Nat) (d : Nat → Nat)
    (dbase sbase j t : Nat) (ht : t < zig.length) (hnd : zig.Nodup) :
    reorder_go zig src d dbase sbase j (dbase + zig.getD t 0) = src (sbase + j + t) := by
  induction zig generalizing d j t with
  | nil => cases ht
  | cons z rest ih =>
    rcases List.pairwise_cons.mp hnd with ⟨hz, hrest⟩
    match t with
    | 0 =>
      show reorder_go rest src _ dbase sbase (j + 1) (dbase + z) = src (sbase + j + 0)
      rw [reorder_go_out rest src _ dbase sbase (j + 1) (dbase + z)
        (fun z' hz' hc => hz z' hz' (by omega))]
      rw [Function.update_same]
      rfl
    | Nat.succ t' =>
      show reorder_go rest src _ dbase sbase (j + 1) (dbase + rest.getD t' 0) = _
      rw [ih _ (j + 1) t' (by simpa using ht) hrest]
      congr 1
      omega

theorem reorder_many_out (zig : List Nat) (len : Nat) (src d : Nat → Nat)
    (dbase sbase n k : Nat)
    (h : ∀ t, t < n → ∀ z ∈ zig, dbase + len * t + z ≠ k) :
    reorder_many zig len src d dbase sbase n k = d k := by
  induction n generalizing d dbase sbase with
  | zero => rfl
  | succ m ih =>
    show reorder_many zig len src _ (dbase + len) (sbase + len) m k = d k
    rw [ih _ _ _ ?hrest]
    case hrest =>
      intro t ht z hz
      have h2 := h (t + 1) (by omega) z hz
      have he : dbase + len * (t + 1) + z = dbase + len + len * t + z := by ring
      rw [he] at h2
      exact h2
    apply reorder_go_out
    intro z hz
    have h2 := h 0 (by omega) z hz
    simpa using h2

theorem reorder_many_at (zig : List Nat) (len : Nat) (src d : Nat → Nat)
    (dbase sbase n t u : Nat)
    (ht : t < n) (hu : u < zig.length) (hnd : zig.Nodup)
    (hlen : ∀ z ∈ zig, z < len) :
    reorder_many zig len src d dbase sbase n (dbase + len * t + zig.getD u 0) =
      src (sbase + len * t + u) := by
  have hzu : zig.getD u 0 ∈ zig := by
    rw [List.getD_eq_getElem zig 0 hu]
    exact List.getElem_mem hu
  induction n generalizing d dbase sbase t with
  | zero => cases ht
  | succ m ih =>
    match t with
    | 0 =>
      show reorder_many zig len src _ (dbase + len) (sbase + len) m
          (dbase + len * 0 + zig.getD u 0) = src (sbase + len * 0 + u)
      rw [reorder_many_out zig len src _ (dbase + len) (sbase + len) m _ ?hout]
      case hout =>
        intro t' ht' z hz
        have hz16 := hlen (zig.getD u 0) hzu
        omega
      have hgo := reorder_go_at zig src d dbase sbase 0 u hu hnd
      rw [show dbase + len * 0 + zig.getD u 0 = dbase + zig.getD u 0 by omega, hgo,
        show sbase + 0 + u = sbase + len * 0 + u by omega]
    | Nat.succ t' =>
      show reorder_many zig len src _ (dbase + len) (sbase + len) m
          (dbase + len * (t' + 1) + zig.getD u 0) = src (sbase + len * (t' + 1) + u)
      have he : dbase + len * (t' + 1) + zig.getD u 0 =
          dbase + len + len * t' + zig.getD u 0 := by ring
      rw [he, ih _ _ _ t' (by omega)]
      congr 1
      ring

set_option maxRecDepth 8192 in
/-- C7: the scaling-list reorderer writes `dest[zigzag[j]] = src[j]` for each
of the 6 4x4 lists followed contiguously by the 6 8x8 lists, and applying the
reorderer to a list already permuted from raster order into zig-zag order
(the inverse permutation) recovers the original list, for both 4x4 and 8x8
sizes. -/
theorem C7_reorder_scaling (s4 s8 dst : Nat → Nat) :
    (∀ i j, i < 6 → j < 16 →
      reorder_scaling_list s4 s8 dst (16 * i + zig_zag_4x4.getD j 0) = s4 (16 * i + j)) ∧
    (∀ i j, i < 6 → j < 64 →
      reorder_scaling_list s4 s8 dst (96 + 64 * i + zig_zag_8x8.getD j 0) =
        s8 (64 * i + j)) ∧
    (∀ (r d : Nat → Nat) (k : Nat), k < 16 →
      reorder_go zig_zag_4x4 (fun j => r (zig_zag_4x4.getD j 0)) d 0 0 0 k = r k) ∧
    (∀ (r d : Nat → Nat) (k : Nat), k < 64 →
      reorder_go zig_zag_8x8 (fun j => r (zig_zag_8x8.getD j 0)) d 0 0 0 k = r k) := by
  have hnd4 : zig_zag_4x4.Nodup := by decide
  have hnd8 : zig_zag_8x8.Nodup := by decide
  have hlt4 : ∀ z ∈ zig_zag_4x4, z < 16 := by decide
  have hlt8 : ∀ z ∈ zig_zag_8x8, z < 64 := by decide
  refine ⟨?_, ?_, ?_, ?_⟩
  · intro i j hi hj
    have hz : zig_zag_4x4.getD j 0 < 16 := by
      apply hlt4
      rw [List.getD_eq_getElem zig_zag_4x4 0 (by simpa using hj)]
      exact List.getElem_mem (by simpa using hj)
    unfold reorder_scaling_list
    rw [reorder_many_out zig_zag_8x8 64 s8 _ 96 0 6 _ ?hout]
    case hout =>
      intro t ht z hz8
      omega
    rw [show 16 * i + zig_zag_4x4.getD j 0 = 0 + 16 * i + zig_zag_4x4.getD j 0 by omega,
      reorder_many_at zig_zag_4x4 16 s4 dst 0 0 6 i j hi (by simpa using hj) hnd4 hlt4]
    congr 1
    omega
  · intro i j hi hj
    unfold reorder_scaling_list
    rw [show 96 + 64 * i + zig_zag_8x8.getD j 0 = 96 + 64 * i + zig_zag_8x8.getD j 0
      from rfl,
      reorder_many_at zig_zag_8x8 64 s8 _ 96 0 6 i j hi (by simpa using hj) hnd8 hlt8]
    congr 1
    omega
  · intro r d k hk
    have hex : ∃ u, u < 16 ∧ zig_zag_4x4.getD u 0 = k := by
      revert hk
      revert k
      decide
    rcases hex with ⟨u, hu, hku⟩
    have hgo := reorder_go_at zig_zag_4x4 (fun j => r (zig_zag_4x4.getD j 0)) d 0 0 0 u
      (by simpa using hu) hnd4
    rw [show (0 : Nat) + zig_zag_4x4.getD u 0 = zig_zag_4x4.getD u 0 by omega] at hgo
    rw [← hku, hgo, show (0 : Nat) + 0 + u = u by omega]
  · intro r d k hk
    have hex : ∃ u, u < 64 ∧ zig_zag_8x8.getD u 0 = k := by
      revert hk
      revert k
      decide
    rcases hex with ⟨u, hu, hku⟩
    have hgo := reorder_go_at zig_zag_8x8 (fun j => r (zig_zag_8x8.getD j 0)) d 0 0 0 u
      (by simpa using hu) hnd8
    rw [show (0 : Nat) + zig_zag_8x8.getD u 0 = zig_zag_8x8.getD u 0 by omega] at hgo
    rw [← hku, hgo, show (0 : Nat) + 0 + u = u by omega]

/-- C7 witness: concrete instantiation — coefficient 3 of 4x4 list 2 and
coefficient 10 of 8x8 list 1 land at their zig-zag positions, and the
round-trip recovers raster entries 7 (4x4) and 9 (8x8). -/
theorem C7_witness :
    (2 : Nat) < 6 ∧ (3 : Nat) < 16 ∧ (1 : Nat) < 6 ∧ (10 : Nat) < 64 ∧
    (7 : Nat) < 16 ∧ (9 : Nat) < 64 ∧
    reorder_scaling_list (fun n => n + 1) (fun n => 2 * n) (fun _ => 0)
      (16 * 2 + zig_zag_4x4.getD 3 0) = 16 * 2 + 3 + 1 ∧
    reorder_scaling_list (fun n => n + 1) (fun n => 2 * n) (fun _ => 0)
      (96 + 64 * 1 + zig_zag_8x8.getD 10 0) = 2 * (64 * 1 + 10) ∧
    reorder_go zig_zag_4x4 (fun j => (fun n => n * 3) (zig_zag_4x4.getD j 0))
      (fun _ => 0) 0 0 0 7 = 7 * 3 ∧
    reorder_go zig_zag_8x8 (fun j => (fun n => n * 3) (zig_zag_8x8.getD j 0))
      (fun _ => 0) 0 0 0 9 = 9 * 3 := by
  have h := C7_reorder_scaling (fun n => n + 1) (fun n => 2 * n) (fun _ => 0)
  exact ⟨by norm_num, by norm_num, by norm_num, by norm_num, by norm_num, by norm_num,
    h.1 2 3 (by norm_num) (by norm_num),
    h.2.1 1 10 (by norm_num) (by norm_num),
    h.2.2.1 (fun n => n * 3) (fun _ => 0) 7 (by norm_num),
    h.2.2.2 (fun n => n * 3) (fun _ => 0) 9 (by norm_num)⟩

/-- SPS flag bits from the V4L2 stateless-H.264 controls header of this
kernel tree (header not among the extracted sources; the bit positions match
the shifts the source applies to each flag). -/
def V4L2_H264_SPS_FLAG_DELTA_PIC_ORDER_ALWAYS_ZERO : Nat := 0x04

/-- See V4L2_H264_SPS_FLAG_DELTA_PIC_ORDER_ALWAYS_ZERO. -/
def V4L2_H264_SPS_FLAG_FRAME_MBS_ONLY : Nat := 0x10

/-- See V4L2_H264_SPS_FLAG_DELTA_PIC_ORDER_ALWAYS_ZERO. -/
def V4L2_H264_SPS_FLAG_MB_ADAPTIVE_FRAME_FIELD : Nat := 0x20

/-- See V4L2_H264_SPS_FLAG_DELTA_PIC_ORDER_ALWAYS_ZERO. -/
def V4L2_H264_SPS_FLAG_DIRECT_8X8_INFERENCE : Nat := 0x40

/-- PPS flag bits, as for the SPS flags. -/
def V4L2_H264_PPS_FLAG_ENTROPY_CODING_MODE : Nat := 0x01

/-- See V4L2_H264_PPS_FLAG_ENTROPY_CODING_MODE. -/
def V4L2_H264_PPS_FLAG_BOTTOM_FIELD_PIC_ORDER_IN_FRAME_PRESENT : Nat := 0x02

/-- See V4L2_H264_PPS_FLAG_ENTROPY_CODING_MODE. -/
def V4L2_H264_PPS_FLAG_WEIGHTED_PRED : Nat := 0x04

/-- See V4L2_H264_PPS_FLAG_ENTROPY_CODING_MODE. -/
def V4L2_H264_PPS_FLAG_DEBLOCKING_FILTER_CONTROL_PRESENT : Nat := 0x08

/-- See V4L2_H264_PPS_FLAG_ENTROPY_CODING_MODE. -/
def V4L2_H264_PPS_FLAG_CONSTRAINED_INTRA_PRED : Nat := 0x10

/-- See V4L2_H264_PPS_FLAG_ENTROPY_CODING_MODE. -/
def V4L2_H264_PPS_FLAG_REDUNDANT_PIC_CNT_PRESENT : Nat := 0x20

/-- See V4L2_H264_PPS_FLAG_ENTROPY_CODING_MODE. -/
def V4L2_H264_PPS_FLAG_TRANSFORM_8X8_MODE : Nat := 0x40

/-- Sequence parameter set (`struct v4l2_ctrl_h264_sps`), restricted to the
fields the decoder core reads. -/
structure Sps where
  chroma_format_idc : Nat
  bit_depth_luma_minus8 : Nat
  bit_depth_chroma_minus8 : Nat
  log2_max_frame_num_minus4 : Nat
  max_num_ref_frames : Nat
  pic_order_cnt_type : Nat
  log2_max_pic_order_cnt_lsb_minus4 : Nat
  pic_width_in_mbs_minus1 : Nat
  pic_height_in_map_units_minus1 : Nat
  flags : Nat

/-- Picture parameter set (`struct v4l2_ctrl_h264_pps`), restricted to the
fields the decoder core reads. -/
structure Pps where
  pic_parameter_set_id : Nat
  num_ref_idx_l0_default_active_minus1 : Nat
  num_ref_idx_l1_default_active_minus1 : Nat
  weighted_bipred_idc : Nat
  pic_init_qp_minus26 : Nat
  pic_init_qs_minus26 : Nat
  chroma_qp_index_offset : Nat
  second_chroma_qp_index_offset : Nat
  flags : Nat

/-- The `WRITE_PPS` calls of `assemble_hw_pps` (part_000, lines 252-318), in
source order, as (value, bit offset, bit length) relative to the 32-byte
record.  Modelled from the spec: the per-field `_OFF`/`_LEN` constants come
from rk3399_vdec_regs.h, which is not among the extracted sources; the spec
only fixes that the ~24 fields sit at fixed disjoint offsets inside the
32-byte (256-bit) record, so they are modelled as consecutive fields of the
natural widths, the 16 per-slot long-term flag bits last.  The values are
the source's. -/
def pps_field_writes (sps : Sps) (pps : Pps) (dpb : Nat → DpbEntry)
    (scaling_list_address : Nat) : List (Nat × Nat × Nat) :=
  [(sps.chroma_format_idc, 0, 2),
   (sps.bit_depth_luma_minus8 + 8, 2, 3),
   (sps.bit_depth_chroma_minus8 + 8, 5, 3),
   (0, 8, 1),
   (sps.log2_max_frame_num_minus4, 9, 4),
   (sps.max_num_ref_frames, 13, 5),
   (sps.pic_order_cnt_type, 18, 2),
   (sps.log2_max_pic_order_cnt_lsb_minus4, 20, 4),
   ((sps.flags &&& V4L2_H264_SPS_FLAG_DELTA_PIC_ORDER_ALWAYS_ZERO) >>> 2, 24, 1),
   (sps.pic_width_in_mbs_minus1 + 1, 25, 9),
   (sps.pic_height_in_map_units_minus1 + 1, 34, 9),
   ((sps.flags &&& V4L2_H264_SPS_FLAG_FRAME_MBS_ONLY) >>> 4, 43, 1),
   ((sps.flags &&& V4L2_H264_SPS_FLAG_MB_ADAPTIVE_FRAME_FIELD) >>> 5, 44, 1),
   ((sps.flags &&& V4L2_H264_SPS_FLAG_DIRECT_8X8_INFERENCE) >>> 6, 45, 1),
   (pps.flags &&& V4L2_H264_PPS_FLAG_ENTROPY_CODING_MODE, 46, 1),
   ((pps.flags &&& V4L2_H264_PPS_FLAG_BOTTOM_FIELD_PIC_ORDER_IN_FRAME_PRESENT) >>> 1,
     47, 1),
   (pps.num_ref_idx_l0_default_active_minus1, 48, 5),
   (pps.num_ref_idx_l1_default_active_minus1, 53, 5),
   ((pps.flags &&& V4L2_H264_PPS_FLAG_WEIGHTED_PRED) >>> 2, 58, 1),
   (pps.weighted_bipred_idc, 59, 2),
   (pps.pic_init_qp_minus26, 61, 7),
   (pps.pic_init_qs_minus26, 68, 7),
   (pps.chroma_qp_index_offset, 75, 5),
   ((pps.flags &&& V4L2_H264_PPS_FLAG_DEBLOCKING_FILTER_CONTROL_PRESENT) >>> 3, 80, 1),
   ((pps.flags &&& V4L2_H264_PPS_FLAG_CONSTRAINED_INTRA_PRED) >>> 4, 81, 1),
   ((pps.flags &&& V4L2_H264_PPS_FLAG_REDUNDANT_PIC_CNT_PRESENT) >>> 5, 82, 1),
   ((pps.flags &&& V4L2_H264_PPS_FLAG_TRANSFORM_8X8_MODE) >>> 6, 83, 1),
   (pps.second_chroma_qp_index_offset, 84, 5),
   (1, 89, 1),
   (scaling_list_address, 90, 32)] ++
  (List.range 16).map (fun i =>
    (if (dpb i).flags &&& V4L2_H264_DPB_ENTRY_FLAG_LONG_TERM ≠ 0 then 1 else 0,
      122 + i, 1))

/-- The `memset(hw_ps, 0, sizeof(*hw_ps))` of `assemble_hw_pps`: zero the 8
words of hardware record `id` of the 256-slot parameter-set table region. -/
def memset_record (region : Nat → Nat) (id : Nat) : Nat → Nat :=
  fun w => if 8 * id ≤ w ∧ w < 8 * id + 8 then 0 else region w

/-- `assemble_hw_pps` (part_000, lines 231-319): locate the record at
`param_set[pps->pic_parameter_set_id]`, zero it, then pack the fields through
the `hw_ps` pointer — a field at record-relative bit `off` lands at bit
`256 * id + off` of the table region. -/
def assemble_hw_pps (region : Nat → Nat) (sps : Sps) (pps : Pps)
    (dpb : Nat → DpbEntry) (scaling_list_address : Nat) : Nat → Nat :=
  apply_writes
    ((pps_field_writes sps pps dpb scaling_list_address).map
      (fun w => (w.1, 256 * pps.pic_parameter_set_id + w.2.1, w.2.2)))
    (memset_record region pps.pic_parameter_set_id)

theorem pps_field_writes_bounds (sps : Sps) (pps : Pps) (dpb : Nat → DpbEntry)
    (a : Nat) :
    ∀ w ∈ pps_field_writes sps pps dpb a, 1 ≤ w.2.2 ∧ w.2.1 + w.2.2 ≤ 256 := by
  have hproj : (pps_field_writes sps pps dpb a).map (fun w => (w.2.1, w.2.2)) =
      [(0, 2), (2, 3), (5, 3), (8, 1), (9, 4), (13, 5), (18, 2), (20, 4), (24, 1),
       (25, 9), (34, 9), (43, 1), (44, 1), (45, 1), (46, 1), (47, 1), (48, 5),
       (53, 5), (58, 1), (59, 2), (61, 7), (68, 7), (75, 5), (80, 1), (81, 1),
       (82, 1), (83, 1), (84, 5), (89, 1), (90, 32), (122, 1), (123, 1), (124, 1),
       (125, 1), (126, 1), (127, 1), (128, 1), (129, 1), (130, 1), (131, 1),
       (132, 1), (133, 1), (134, 1), (135, 1), (136, 1), (137, 1)] := by
    rfl
  intro w hw
  have hm : (w.2.1, w.2.2) ∈ (pps_field_writes sps pps dpb a).map (fun w => (w.2.1, w.2.2)) :=
    List.mem_map_of_mem _ hw
  rw [hproj] at hm
  have hb : ∀ p ∈ ([(0, 2), (2, 3), (5, 3), (8, 1), (9, 4), (13, 5), (18, 2), (20, 4),
      (24, 1), (25, 9), (34, 9), (43, 1), (44, 1), (45, 1), (46, 1), (47, 1), (48, 5),
      (53, 5), (58, 1), (59, 2), (61, 7), (68, 7), (75, 5), (80, 1), (81, 1),
      (82, 1), (83, 1), (84, 5), (89, 1), (90, 32), (122, 1), (123, 1), (124, 1),
      (125, 1), (126, 1), (127, 1), (128, 1), (129, 1), (130, 1), (131, 1),
      (132, 1), (133, 1), (134, 1), (135, 1), (136, 1), (137, 1)] :
        List (Nat × Nat)), 1 ≤ p.2 ∧ p.1 + p.2 ≤ 256 := by decide
  have := hb _ hm
  exact ⟨this.1, this.2⟩

theorem apply_writes_apply_ne (L : List (Nat × Nat × Nat)) (buffer : Nat → Nat)
    (w' : Nat)
    (h : ∀ u ∈ L, w' ≠ u.2.1 / 32 ∧ (u.2.2 + u.2.1 % 32 ≤ 32 ∨ w' ≠ u.2.1 / 32 + 1)) :
    apply_writes L buffer w' = buffer w' := by
  induction L generalizing buffer with
  | nil => rfl
  | cons u L ih =>
    rw [apply_writes_cons, ih _ (fun v hv => h v (List.mem_cons_of_mem u hv))]
    have hu := h u (List.mem_cons_self u L)
    exact write_header_apply_ne u.1 buffer u.2.1 u.2.2 w' hu.1 hu.2

theorem write_header_congr (v o l : Nat) (b1 b2 : Nat → Nat) (w' : Nat)
    (hw : b1 (o / 32) = b2 (o / 32))
    (hw1 : l + o % 32 > 32 → b1 (o / 32 + 1) = b2 (o / 32 + 1))
    (hww : b1 w' = b2 w') :
    write_header v b1 o l w' = write_header v b2 o l w' := by
  simp only [write_header]
  split
  case isTrue hstr =>
    by_cases h1 : w' = o / 32 + 1
    · subst h1
      rw [Function.update_same, Function.update_same,
        Function.update_noteq (show o / 32 + 1 ≠ o / 32 by omega),
        Function.update_noteq (show o / 32 + 1 ≠ o / 32 by omega), hw1 hstr]
    · rw [Function.update_noteq h1, Function.update_noteq h1]
      by_cases h2 : w' = o / 32
      · subst h2
        rw [Function.update_same, Function.update_same, hw]
      · rw [Function.update_noteq h2, Function.update_noteq h2]
        exact hww
  case isFalse hstr =>
    by_cases h2 : w' = o / 32
    · subst h2
      rw [Function.update_same, Function.update_same, hw]
    · rw [Function.update_noteq h2, Function.update_noteq h2]
      exact hww

theorem apply_writes_congr_range (L : List (Nat × Nat × Nat)) (b1 b2 : Nat → Nat)
    (lo hi : Nat)
    (hwords : ∀ u ∈ L, lo ≤ u.2.1 / 32 ∧ u.2.1 / 32 < hi ∧
      (u.2.2 + u.2.1 % 32 > 32 → u.2.1 / 32 + 1 < hi))
    (hagree : ∀ w, lo ≤ w → w < hi → b1 w = b2 w) :
    ∀ w, lo ≤ w → w < hi → apply_writes L b1 w = apply_writes L b2 w := by
  induction L generalizing b1 b2 with
  | nil => exact fun w h1 h2 => hagree w h1 h2
  | cons u L ih =>
    intro w h1 h2
    rw [apply_writes_cons, apply_writes_cons]
    have hu := hwords u (List.mem_cons_self u L)
    apply ih _ _ (fun v hv => hwords v (List.mem_cons_of_mem u hv)) _ w h1 h2
    intro w2 hw1 hw2
    apply write_header_congr
    · exact hagree _ hu.1 hu.2.1
    · intro hstr
      exact hagree _ (by omega) (hu.2.2 hstr)
    · exact hagree _ hw1 hw2

theorem assemble_hw_pps_out (region : Nat → Nat) (sps : Sps) (pps : Pps)
    (dpb : Nat → DpbEntry) (a : Nat) :
    ∀ w, (w < 8 * pps.pic_parameter_set_id ∨ 8 * pps.pic_parameter_set_id + 8 ≤ w) →
      assemble_hw_pps region sps pps dpb a w = region w := by
  intro w hw
  unfold assemble_hw_pps
  rw [apply_writes_apply_ne]
  · unfold memset_record
    rw [if_neg (by omega)]
  · intro u hu
    rcases List.mem_map.mp hu with ⟨v, hv, rfl⟩
    have hb := pps_field_writes_bounds sps pps dpb a v hv
    obtain ⟨hb1, hb2⟩ := hb
    rcases v with ⟨vv, vo, vl⟩
    constructor
    · show w ≠ (256 * pps.pic_parameter_set_id + vo) / 32
      simp only at hb1 hb2
      omega
    · show vl + (256 * pps.pic_parameter_set_id + vo) % 32 ≤ 32 ∨
        w ≠ (256 * pps.pic_parameter_set_id + vo) / 32 + 1
      simp only at hb1 hb2
      omega

theorem assemble_hw_pps_congr (region region' : Nat → Nat) (sps : Sps) (pps : Pps)
    (dpb : Nat → DpbEntry) (a : Nat) :
    ∀ w, 8 * pps.pic_parameter_set_id ≤ w → w < 8 * pps.pic_parameter_set_id + 8 →
      assemble_hw_pps region sps pps dpb a w =
        assemble_hw_pps region' sps pps dpb a w := by
  unfold assemble_hw_pps
  apply apply_writes_congr_range _ _ _
    (8 * pps.pic_parameter_set_id) (8 * pps.pic_parameter_set_id + 8)
  · intro u hu
    rcases List.mem_map.mp hu with ⟨v, hv, rfl⟩
    obtain ⟨hb1, hb2⟩ := pps_field_writes_bounds sps pps dpb a v hv
    rcases v with ⟨vv, vo, vl⟩
    simp only at hb1 hb2
    refine ⟨?_, ?_, ?_⟩
    · show 8 * pps.pic_parameter_set_id ≤ (256 * pps.pic_parameter_set_id + vo) / 32
      omega
    · show (256 * pps.pic_parameter_set_id + vo) / 32 < 8 * pps.pic_parameter_set_id + 8
      omega
    · show vl + (256 * pps.pic_parameter_set_id + vo) % 32 > 32 →
        (256 * pps.pic_parameter_set_id + vo) / 32 + 1 < 8 * pps.pic_parameter_set_id + 8
      omega
  · intro w h1 h2
    unfold memset_record
    rw [if_pos ⟨h1, h2⟩, if_pos ⟨h1, h2⟩]

/-- C6: the PPS assembler fully zeroes the 32-byte hardware record selected by
the PPS id before packing any field into it — the assembled record is
independent of the table's prior contents — and modifies no other record of
the parameter-set table: assembling id1 then a distinct id2 leaves the record
at id1 exactly as its own assembly left it. -/
theorem C6_pps_record_isolation (region : Nat → Nat)
    (sps1 : Sps) (pps1 : Pps) (dpb1 : Nat → DpbEntry) (a1 : Nat)
    (sps2 : Sps) (pps2 : Pps) (dpb2 : Nat → DpbEntry) (a2 : Nat)
    (region' : Nat → Nat)
    (hne : pps1.pic_parameter_set_id ≠ pps2.pic_parameter_set_id) :
    (∀ w, 8 * pps1.pic_parameter_set_id ≤ w → w < 8 * pps1.pic_parameter_set_id + 8 →
      assemble_hw_pps (assemble_hw_pps region sps1 pps1 dpb1 a1) sps2 pps2 dpb2 a2 w =
        assemble_hw_pps region sps1 pps1 dpb1 a1 w) ∧
    (∀ w, (w < 8 * pps2.pic_parameter_set_id ∨ 8 * pps2.pic_parameter_set_id + 8 ≤ w) →
      assemble_hw_pps region' sps2 pps2 dpb2 a2 w = region' w) ∧
    (∀ w, 8 * pps1.pic_parameter_set_id ≤ w → w < 8 * pps1.pic_parameter_set_id + 8 →
      assemble_hw_pps region sps1 pps1 dpb1 a1 w =
        assemble_hw_pps region' sps1 pps1 dpb1 a1 w) := by
  refine ⟨?_, assemble_hw_pps_out region' sps2 pps2 dpb2 a2,
    assemble_hw_pps_congr region region' sps1 pps1 dpb1 a1⟩
  intro w h1 h2
  exact assemble_hw_pps_out _ sps2 pps2 dpb2 a2 w (by omega)

/-- Sample SPS for the witnesses (1920x1088 4:2:0 8-bit stream). -/
def sampleSps : Sps :=
  { chroma_format_idc := 1, bit_depth_luma_minus8 := 0, bit_depth_chroma_minus8 := 0,
    log2_max_frame_num_minus4 := 4, max_num_ref_frames := 1, pic_order_cnt_type := 0,
    log2_max_pic_order_cnt_lsb_minus4 := 4, pic_width_in_mbs_minus1 := 119,
    pic_height_in_map_units_minus1 := 67, flags := 0x50 }

/-- Sample PPS with id 5. -/
def samplePps5 : Pps :=
  { pic_parameter_set_id := 5, num_ref_idx_l0_default_active_minus1 := 0,
    num_ref_idx_l1_default_active_minus1 := 0, weighted_bipred_idc := 0,
    pic_init_qp_minus26 := 0, pic_init_qs_minus26 := 0, chroma_qp_index_offset := 0,
    second_chroma_qp_index_offset := 0, flags := 1 }

/-- Sample PPS with id 7. -/
def samplePps7 : Pps :=
  { pic_parameter_set_id := 7, num_ref_idx_l0_default_active_minus1 := 1,
    num_ref_idx_l1_default_active_minus1 := 1, weighted_bipred_idc := 0,
    pic_init_qp_minus26 := 2, pic_init_qs_minus26 := 2, chroma_qp_index_offset := 3,
    second_chroma_qp_index_offset := 3, flags := 0 }

/-- C6 witness: assembling id 5 then id 7 leaves word 40 (the first word of
record 5) unchanged, and record 5's contents do not depend on the prior table
contents. -/
theorem C6_witness :
    samplePps5.pic_parameter_set_id ≠ samplePps7.pic_parameter_set_id ∧
    8 * samplePps5.pic_parameter_set_id ≤ 40 ∧
    40 < 8 * samplePps5.pic_parameter_set_id + 8 ∧
    assemble_hw_pps (assemble_hw_pps (fun _ => 0) sampleSps samplePps5 sampleDpb 4096)
        sampleSps samplePps7 sampleDpb 4096 40 =
      assemble_hw_pps (fun _ => 0) sampleSps samplePps5 sampleDpb 4096 40 ∧
    assemble_hw_pps (fun _ => 0) sampleSps samplePps5 sampleDpb 4096 40 =
      assemble_hw_pps (fun _ => 7) sampleSps samplePps5 sampleDpb 4096 40 := by
  have h := C6_pps_record_isolation (fun _ => 0) sampleSps samplePps5 sampleDpb 4096
    sampleSps samplePps7 sampleDpb 4096 (fun _ => 7) (by decide)
  exact ⟨by decide, by decide, by decide,
    h.1 40 (by decide) (by decide), h.2.2 40 (by decide) (by decide)⟩

/-- The kernel `round_up(x, n)` for power-of-two `n`
(`((x) + (n) - 1) & ~((n) - 1)`): `x` rounded up to the next multiple of
`n`. -/
def round_up (x n : Nat) : Nat := (x + n - 1) / n * n

/-- The stride computation of `config_regs` (part_000, lines 518-528):
horizontal stride in bytes, vertical stride rounded up to a 16-pixel
macroblock boundary, luma plane size, and combined luma+chroma size by
chroma format (0 = monochrome, 1 = 4:2:0, 2 = 4:2:2; `yuv_virstride` starts
at 0 and is left 0 for any other chroma_format_idc). -/
def config_strides (sps : Sps) (width height : Nat) : Nat × Nat × Nat × Nat :=
  let hor_virstride := (sps.bit_depth_luma_minus8 + 8) * width / 8
  let ver_virstride := round_up height 16
  let y_virstride := hor_virstride * ver_virstride
  let yuv_virstride :=
    if sps.chroma_format_idc = 0 then y_virstride
    else if sps.chroma_format_idc = 1 then y_virstride + y_virstride / 2
    else if sps.chroma_format_idc = 2 then 2 * y_virstride
    else 0
  (hor_virstride, ver_virstride, y_virstride, yuv_virstride)

/-- C5 counterexample: for width 1920, height 1080, 8-bit luma, 4:2:0, the
register builder does NOT produce vertical stride 1080 / luma 2,073,600 /
YUV 3,110,400 as the claim states: 1080 is not a multiple of 16, so
`round_up(1080, 16)` yields 1088. -/
theorem C5_counterexample :
    config_strides sampleSps 1920 1080 ≠ (1920, 1080, 2073600, 3110400) ∧
    (config_strides sampleSps 1920 1080).2.1 = 1088 := by
  constructor
  · decide
  · decide

/-- C5 (amended): for width 1920, height 1080, 8-bit luma and
chroma_format_idc 1 (4:2:0), the register builder computes horizontal stride
1920, vertical stride 1088 (1080 rounded up to the 16-pixel macroblock
boundary), luma plane size 2,088,960 and combined YUV size 3,133,440
(luma x 1.5). -/
theorem C5_strides :
    config_strides sampleSps 1920 1080 = (1920, 1088, 2088960, 3133440) := by
  decide

/-- Modelled from the spec: the `RKVDEC_CUR_POC(x)` register field macro of
rk3399_vdec_regs.h is not among the extracted sources; the current-POC
register takes the 32-bit picture order count value. -/
def RKVDEC_CUR_POC (x : Nat) : Nat := x % 2 ^ 32

/-- The two current-POC register writes of `config_regs` (part_000, lines
594-602): RKVDEC_REG_CUR_POC0 is written from the top field order count and
RKVDEC_REG_CUR_POC1 from the bottom field order count. -/
def cur_poc_regs (dec : DecodeParams) : Nat × Nat :=
  (RKVDEC_CUR_POC dec.top_field_order_cnt, RKVDEC_CUR_POC dec.bottom_field_order_cnt)

/-- Sample decode parameters whose top and bottom field order counts differ
(field-coded input). -/
def sampleDecFields : DecodeParams :=
  { sampleDec with top_field_order_cnt := 0, bottom_field_order_cnt := 1 }

/-- C8 counterexample: `config_regs` copies the top and the bottom field
order count into CUR_POC0 / CUR_POC1 separately; for decode parameters where
the two counts differ the two registers receive different values, so they
are not identical for every frame. -/
theorem C8_counterexample :
    (cur_poc_regs sampleDecFields).1 ≠ (cur_poc_regs sampleDecFields).2 := by
  decide

/-- C8 (amended): the register builder writes CUR_POC0 from the top field
order count and CUR_POC1 from the bottom one; the two registers receive an
identical value whenever the two counts are equal — which frame-only coding
guarantees for its inputs — but the code itself does not force them equal. -/
theorem C8_cur_poc (dec : DecodeParams)
    (h : dec.top_field_order_cnt = dec.bottom_field_order_cnt) :
    (cur_poc_regs dec).1 = (cur_poc_regs dec).2 := by
  unfold cur_poc_regs RKVDEC_CUR_POC
  rw [h]

/-- C8 witness: on the sample frame-coded decode parameters (both counts 6)
the two POC registers coincide. -/
theorem C8_witness :
    sampleDec.top_field_order_cnt = sampleDec.bottom_field_order_cnt ∧
    (cur_poc_regs sampleDec).1 = (cur_poc_regs sampleDec).2 :=
  ⟨by decide, C8_cur_poc sampleDec (by decide)⟩

/-- Modelled from the spec: per-job completion state for the race between the
interrupt path and the watchdog.  `watchdog_pending` is the kernel
delayed-work state — the armed watchdog work stays pending until either the
2-second timer expires and the workqueue atomically dequeues it to run the
handler, or `cancel_delayed_work` atomically removes it first (the workqueue
implementation is kernel code outside the extracted sources).
`finish_count` counts `rockchip_vpu_job_finish` invocations. -/
structure JobState where
  watchdog_pending : Bool
  finish_count : Nat

/-- `rockchip_vpu_job_finish` (part_000, lines 796-829): finalize the job
(buffer completion and m2m job-finish), counted once per invocation. -/
def rockchip_vpu_job_finish (s : JobState) : JobState :=
  { s with finish_count := s.finish_count + 1 }

/-- Modelled from the spec: `cancel_delayed_work` atomically removes the
pending work and reports whether it was still pending; `false` means the
timeout already expired and the watchdog owns job completion. -/
def cancel_delayed_work (s : JobState) : Bool × JobState :=
  (s.watchdog_pending, { s with watchdog_pending := false })

/-- `rockchip_vpu_irq_done` (part_000, lines 831-845): on the completion
interrupt, finish the job only if the watchdog work could still be
cancelled. -/
def rockchip_vpu_irq_done (s : JobState) : JobState :=
  let c := cancel_delayed_work s
  if c.1 then rockchip_vpu_job_finish c.2 else c.2

/-- `rockchip_vpu_watchdog` (part_000, lines 847-860) fused with the modelled
timer expiry: the handler runs — resets the hardware and finishes the job —
only if the workqueue atomically dequeued the still-pending work. -/
def rockchip_vpu_watchdog_fire (s : JobState) : JobState :=
  if s.watchdog_pending then
    rockchip_vpu_job_finish { s with watchdog_pending := false }
  else s

/-- A decode job just triggered: watchdog armed, no completion yet. -/
def runningJob : JobState := { watchdog_pending := true, finish_count := 0 }

/-- C9: for an in-flight job, whichever order the normal-completion interrupt
path and the watchdog expiry interleave, exactly one of the two performs job
finalization — job-finish runs exactly once. -/
theorem C9_watchdog_exactly_once :
    (rockchip_vpu_watchdog_fire (rockchip_vpu_irq_done runningJob)).finish_count = 1 ∧
    (rockchip_vpu_irq_done (rockchip_vpu_watchdog_fire runningJob)).finish_count = 1 := by
  constructor
  · rfl
  · rfl
